import Mathlib

/-!
Verification of the `zx` type checker (Rust sources `reachability.rs`, `ty.rs`,
`lib.rs`) against its natural-language specification.  The Rust code is shallowly
embedded: mutation becomes explicit state passing, `Vec` becomes `List`,
`HashMap`/`HashSet` become association lists / membership lists (only membership
and last-insert-wins lookup are ever observed by the code), fallible functions
return `Except String` (the code uses `anyhow` string errors) and the worklist
loops take an explicit fuel parameter (`none` = fuel exhausted; separate
theorems show enough fuel always exists).
-/

namespace Zx

/-- Node identifier (`pub type ID = usize` in `ty.rs`). -/
abbrev ID := Nat

/-- `OrderedSet<T>` from `reachability.rs`: a `Vec<T>` of elements in insertion
order together with a `HashSet<T>` used only for membership tests.  The hash
set is embedded as a plain list `s`; the code only ever queries membership. -/
structure OrderedSet where
  v : List ID
  s : List ID
deriving Repr, DecidableEq

/-- The empty `OrderedSet` (`Default` in Rust). -/
def OrderedSet.empty : OrderedSet := ⟨[], []⟩

/-- `OrderedSet::insert`: returns the updated set and whether the value was new
(`self.s.insert(value)` then push onto `v`). -/
def OrderedSet.insert (os : OrderedSet) (value : ID) : OrderedSet × Bool :=
  if value ∈ os.s then (os, false)
  else ({ v := os.v ++ [value], s := value :: os.s }, true)

/-- `Reachability` from `reachability.rs`: per-node upsets and downsets. -/
structure Reachability where
  upsets : List OrderedSet
  downsets : List OrderedSet
deriving Repr, DecidableEq

/-- The empty graph (`Default`). -/
def Reachability.empty : Reachability := ⟨[], []⟩

/-- `Reachability::add_node`: append fresh empty upset/downset, return the id. -/
def Reachability.add_node (r : Reachability) : Reachability × ID :=
  ({ upsets := r.upsets ++ [OrderedSet.empty],
     downsets := r.downsets ++ [OrderedSet.empty] }, r.upsets.length)

/-- The work-stack loop of `Reachability::add_edge`.  `work` is the stack with
its top at the head (Rust pushes/pops at the `Vec`'s end, so a run of pushes is
appended in reverse).  `out` accumulates the emitted pairs in emission order.
`fuel` bounds the number of iterations; `none` means the fuel ran out.
Rust's `self.downsets[lhs]` indexing is embedded with `getD`/`set` (all callers
use in-range ids; out-of-range indexing panics in Rust). -/
def addEdgeLoop : Nat → Reachability → List (ID × ID) → List (ID × ID) →
    Option (Reachability × List (ID × ID))
  | _, r, [], out => some (r, out)
  | 0, _, _ :: _, _ => none
  | fuel + 1, r, (lhs, rhs) :: work, out =>
    let ds := r.downsets.getD lhs OrderedSet.empty
    let (ds', inserted) := ds.insert rhs
    if inserted then
      let r1 : Reachability := { r with downsets := r.downsets.set lhs ds' }
      let us := r1.upsets.getD lhs OrderedSet.empty
      -- source line 49: `self.upsets[lhs].insert(lhs);`
      let us' := (us.insert lhs).1
      let r2 : Reachability := { r1 with upsets := r1.upsets.set lhs us' }
      let pushes :=
        ((r2.upsets.getD lhs OrderedSet.empty).v.map (fun lhs2 => (lhs2, rhs))) ++
        ((r2.downsets.getD rhs OrderedSet.empty).v.map (fun rhs2 => (lhs, rhs2)))
      addEdgeLoop fuel r2 (pushes.reverse ++ work) (out ++ [(lhs, rhs)])
    else
      addEdgeLoop fuel r work out

/-- `Reachability::add_edge(lhs, rhs, out)`: seed the work stack with the one
edge. -/
def Reachability.add_edge (r : Reachability) (fuel : Nat) (lhs rhs : ID)
    (out : List (ID × ID)) : Option (Reachability × List (ID × ID)) :=
  addEdgeLoop fuel r [(lhs, rhs)] out

/-- Convenience: the downset of node `i` (the `Vec` part, in insertion order). -/
def Reachability.downv (r : Reachability) (i : ID) : List ID :=
  (r.downsets.getD i OrderedSet.empty).v

/-- Convenience: the upset of node `i`. -/
def Reachability.upv (r : Reachability) (i : ID) : List ID :=
  (r.upsets.getD i OrderedSet.empty).v

/-- Two fresh nodes. -/
def r2nodes : Reachability := ((Reachability.empty.add_node).1.add_node).1

/-- Three fresh nodes. -/
def r3nodes : Reachability := (r2nodes.add_node).1

/-- One fresh node. -/
def r1node : Reachability := (Reachability.empty.add_node).1

/-- Result of `add_edge(0, 1)` on two fresh nodes, then `add_edge(1, 2)`
after a third node, composed in sequence. -/
def twoEdgeRun : Option (Reachability × List (ID × ID)) := do
  let (r1, o1) ← r3nodes.add_edge 100 0 1 []
  r1.add_edge 100 1 2 o1

end Zx

namespace Zx

/-- C1.  The claim asserts that after `add_edge(a, b)`, `b ∈ downset[a]`,
`a ∈ upset[b]`, and the mirror invariant holds.  The code violates it: line 49
of `reachability.rs` inserts `lhs` into `upsets[lhs]` instead of inserting
`lhs` into `upsets[rhs]`, so after `add_edge(0, 1)` on two fresh nodes we have
`1 ∈ downset[0]` but `upset[1]` is empty — `0 ∉ upset[1]` and the mirror
invariant fails for the pair `(0, 1)`. -/
theorem add_edge_mirror_invariant_violated :
    r2nodes.add_edge 100 0 1 [] =
      some (⟨[⟨[0], [0]⟩, ⟨[], []⟩], [⟨[1], [1]⟩, ⟨[], []⟩]⟩, [(0, 1)]) ∧
    (1 : ID) ∈ (Reachability.downv ⟨[⟨[0], [0]⟩, ⟨[], []⟩], [⟨[1], [1]⟩, ⟨[], []⟩]⟩ 0) ∧
    (0 : ID) ∉ (Reachability.upv ⟨[⟨[0], [0]⟩, ⟨[], []⟩], [⟨[1], [1]⟩, ⟨[], []⟩]⟩ 1) := by
  decide

/-- C2.  The claim asserts transitive closure: after `add_edge(0, 1)` and
`add_edge(1, 2)`, `2 ∈ downset[0]` and `0 ∈ upset[2]`.  The code violates both:
the upward cascade in `add_edge` reads `upsets[lhs]`, which the buggy line 49
never populates with the true predecessors, so no transitive pair is emitted. -/
theorem add_edge_transitivity_violated :
    twoEdgeRun =
      some (⟨[⟨[0], [0]⟩, ⟨[1], [1]⟩, ⟨[], []⟩],
             [⟨[1], [1]⟩, ⟨[2], [2]⟩, ⟨[], []⟩]⟩, [(0, 1), (1, 2)]) ∧
    (2 : ID) ∉ (Reachability.downv ⟨[⟨[0], [0]⟩, ⟨[1], [1]⟩, ⟨[], []⟩],
             [⟨[1], [1]⟩, ⟨[2], [2]⟩, ⟨[], []⟩]⟩ 0) ∧
    (0 : ID) ∉ (Reachability.upv ⟨[⟨[0], [0]⟩, ⟨[1], [1]⟩, ⟨[], []⟩],
             [⟨[1], [1]⟩, ⟨[2], [2]⟩, ⟨[], []⟩]⟩ 2) := by
  decide

/-- C5 counterexample.  The claim says a self-loop `add_edge(a, a, out)` leaves
`out` unchanged.  On a fresh node the code emits the pair `(0, 0)`: `out` goes
from `[]` to `[(0, 0)]`. -/
theorem self_loop_emits_pair :
    r1node.add_edge 100 0 0 [] = some (⟨[⟨[0], [0]⟩], [⟨[0], [0]⟩]⟩, [(0, 0)]) ∧
    ([(0, 0)] : List (ID × ID)) ≠ [] := by
  decide

/-! ### Well-formedness of reachability states

These predicates hold for every state producible through `add_node` /
`add_edge` (the constructors create empty sets, and the lemmas below show
preservation).  `osWF` says the `Vec` and the mirror `HashSet` of an
`OrderedSet` agree, the `Vec` is duplicate-free, and all elements are valid
node ids.  The last clause of `ReachWF` records the consequence of the bug on
line 49 of `reachability.rs`: an upset can only ever contain the node itself. -/

/-- Agreement, no duplicates, and id-range for one `OrderedSet`. -/
def osWF (n : Nat) (os : OrderedSet) : Prop :=
  (∀ x ∈ os.s, x ∈ os.v) ∧ (∀ x ∈ os.v, x ∈ os.s) ∧ os.v.Nodup ∧ ∀ x ∈ os.v, x < n

instance (n : Nat) (os : OrderedSet) : Decidable (osWF n os) := by
  unfold osWF; infer_instance

/-- Well-formedness of a whole `Reachability` state. -/
def ReachWF (r : Reachability) : Prop :=
  r.upsets.length = r.downsets.length ∧
  (∀ os ∈ r.downsets, osWF r.downsets.length os) ∧
  (∀ os ∈ r.upsets, osWF r.downsets.length os) ∧
  ∀ i < r.upsets.length, ∀ x ∈ (r.upsets.getD i OrderedSet.empty).v, x = i

instance (r : Reachability) : Decidable (ReachWF r) := by
  unfold ReachWF; infer_instance

/-- All pairs in a worklist are valid node ids. -/
def pairsIn (n : Nat) (l : List (ID × ID)) : Prop := ∀ p ∈ l, p.1 < n ∧ p.2 < n

/-- The pairs not yet present in any downset; the fixed-point loops only ever
shrink this set. -/
def missing (r : Reachability) : Finset (Nat × Nat) :=
  (Finset.range r.downsets.length ×ˢ Finset.range r.downsets.length).filter
    (fun p => p.2 ∉ (r.downsets.getD p.1 OrderedSet.empty).v)

theorem getD_set_self {α : Type} (l : List α) (i : Nat) (a d : α) (h : i < l.length) :
    (l.set i a).getD i d = a := by
  rw [List.getD_eq_getElem _ _ (by simpa using h)]
  exact List.getElem_set_self _

theorem getD_set_ne {α : Type} (l : List α) {i j : Nat} (a : α) (d : α) (h : i ≠ j) :
    (l.set i a).getD j d = l.getD j d := by
  by_cases hj : j < l.length
  · rw [List.getD_eq_getElem _ _ (by simpa using hj), List.getD_eq_getElem _ _ hj]
    exact List.getElem_set_ne h _
  · rw [List.getD_eq_default _ _ (by simpa using Nat.le_of_not_lt hj),
      List.getD_eq_default _ _ (Nat.le_of_not_lt hj)]

theorem osWF_getD {r : Reachability} (hW : ReachWF r) (i : Nat) :
    osWF r.downsets.length (r.downsets.getD i OrderedSet.empty) := by
  by_cases h : i < r.downsets.length
  · rw [List.getD_eq_getElem _ _ h]
    exact hW.2.1 _ (List.getElem_mem h)
  · rw [List.getD_eq_default _ _ (Nat.le_of_not_lt h)]
    exact ⟨by simp [OrderedSet.empty], by simp [OrderedSet.empty],
      by simp [OrderedSet.empty], by simp [OrderedSet.empty]⟩

theorem osWF_getD_up {r : Reachability} (hW : ReachWF r) (i : Nat) :
    osWF r.downsets.length (r.upsets.getD i OrderedSet.empty) := by
  by_cases h : i < r.upsets.length
  · rw [List.getD_eq_getElem _ _ h]
    exact hW.2.2.1 _ (List.getElem_mem h)
  · rw [List.getD_eq_default _ _ (Nat.le_of_not_lt h)]
    exact ⟨by simp [OrderedSet.empty], by simp [OrderedSet.empty],
      by simp [OrderedSet.empty], by simp [OrderedSet.empty]⟩

theorem upv_self {r : Reachability} (hW : ReachWF r) (i : Nat) :
    ∀ x ∈ (r.upsets.getD i OrderedSet.empty).v, x = i := by
  by_cases h : i < r.upsets.length
  · exact hW.2.2.2 i h
  · rw [List.getD_eq_default _ _ (Nat.le_of_not_lt h)]
    simp [OrderedSet.empty]

/-- A duplicate-free list all of whose elements equal `c` has length ≤ 1. -/
theorem length_le_one_of_nodup_const {l : List Nat} {c : Nat}
    (hnd : l.Nodup) (hc : ∀ x ∈ l, x = c) : l.length ≤ 1 := by
  match l, hnd, hc with
  | [], _, _ => simp
  | [a], _, _ => simp
  | a :: b :: t, hnd, hc =>
    exfalso
    have ha : a = c := hc a (by simp)
    have hb : b = c := hc b (by simp)
    simp [List.nodup_cons] at hnd
    exact hnd.1.1 (ha.trans hb.symm)

/-- A duplicate-free list of naturals below `n` has length ≤ `n`. -/
theorem length_le_of_nodup_lt {l : List Nat} {n : Nat}
    (hnd : l.Nodup) (hlt : ∀ x ∈ l, x < n) : l.length ≤ n := by
  have h1 : l.toFinset.card = l.length := List.toFinset_card_of_nodup hnd
  have h2 : l.toFinset ⊆ Finset.range n := by
    intro x hx
    simp only [List.mem_toFinset] at hx
    simpa using hlt x hx
  calc l.length = l.toFinset.card := h1.symm
    _ ≤ (Finset.range n).card := Finset.card_le_card h2
    _ = n := Finset.card_range n

/-! ### The insert step of `add_edge` -/

/-- The downset of `lhs` after a fresh insertion of `rhs`. -/
def stepDS (r : Reachability) (lhs rhs : ID) : OrderedSet :=
  let ds := r.downsets.getD lhs OrderedSet.empty
  ⟨ds.v ++ [rhs], rhs :: ds.s⟩

/-- The graph state after the two mutations of one insert iteration of the
`add_edge` work loop. -/
def stepR (r : Reachability) (lhs rhs : ID) : Reachability :=
  let r1 : Reachability := { r with downsets := r.downsets.set lhs (stepDS r lhs rhs) }
  let us := r1.upsets.getD lhs OrderedSet.empty
  { r1 with upsets := r1.upsets.set lhs (us.insert lhs).1 }

/-- The pairs the insert iteration pushes onto the work stack (in push order). -/
def stepPushes (r : Reachability) (lhs rhs : ID) : List (ID × ID) :=
  ((stepR r lhs rhs).upsets.getD lhs OrderedSet.empty).v.map (fun lhs2 => (lhs2, rhs)) ++
  ((stepR r lhs rhs).downsets.getD rhs OrderedSet.empty).v.map (fun rhs2 => (lhs, rhs2))

theorem stepR_downsets (r : Reachability) (lhs rhs : ID) :
    (stepR r lhs rhs).downsets = r.downsets.set lhs (stepDS r lhs rhs) := rfl

theorem stepR_upsets (r : Reachability) (lhs rhs : ID) :
    (stepR r lhs rhs).upsets =
      r.upsets.set lhs (((r.upsets.getD lhs OrderedSet.empty).insert lhs).1) := rfl

/-- Unfolding equation for one iteration of the `add_edge` work loop. -/
theorem addEdgeLoop_cons (fuel : Nat) (r : Reachability) (lhs rhs : ID)
    (work out : List (ID × ID)) :
    addEdgeLoop (fuel + 1) r ((lhs, rhs) :: work) out =
      if rhs ∈ (r.downsets.getD lhs OrderedSet.empty).s then
        addEdgeLoop fuel r work out
      else
        addEdgeLoop fuel (stepR r lhs rhs)
          ((stepPushes r lhs rhs).reverse ++ work) (out ++ [(lhs, rhs)]) := by
  by_cases h : rhs ∈ (r.downsets.getD lhs OrderedSet.empty).s
  · rw [if_pos h]
    simp only [addEdgeLoop, OrderedSet.insert]
    rw [if_pos h]
    simp
  · rw [if_neg h]
    simp only [addEdgeLoop, OrderedSet.insert]
    rw [if_neg h]
    simp only [stepR, stepDS, stepPushes, stepR_upsets, stepR_downsets]
    simp [OrderedSet.insert]

/-- Inserting an in-range element preserves `osWF`. -/
theorem osWF_insert {n : Nat} {os : OrderedSet} (h : osWF n os) {x : Nat} (hx : x < n) :
    osWF n ((os.insert x).1) := by
  unfold OrderedSet.insert
  by_cases hmem : x ∈ os.s
  · simpa [hmem] using h
  · obtain ⟨h1, h2, h3, h4⟩ := h
    have hxv : x ∉ os.v := fun hc => hmem (h2 x hc)
    rw [if_neg hmem]
    unfold osWF
    refine ⟨?_, ?_, ?_, ?_⟩
    · intro y hy
      simp only [List.mem_cons] at hy
      rcases hy with rfl | hy
      · simp
      · simp [h1 y hy]
    · intro y hy
      simp only [List.mem_append, List.mem_singleton] at hy
      rcases hy with hy | rfl
      · simp [h2 y hy]
      · simp
    · simp only
      rw [List.nodup_append]
      exact ⟨h3, List.nodup_singleton x, by simp [hxv]⟩
    · intro y hy
      simp only [List.mem_append, List.mem_singleton] at hy
      rcases hy with hy | rfl
      · exact h4 y hy
      · exact hx

/-- After inserting `c` into an upset whose elements are all `c`, they still
all equal `c`. -/
theorem insert_v_const {os : OrderedSet} {c : Nat}
    (hv : ∀ x ∈ os.v, x = c) : ∀ x ∈ ((os.insert c).1).v, x = c := by
  unfold OrderedSet.insert
  by_cases hmem : c ∈ os.s
  · simpa [hmem] using hv
  · rw [if_neg hmem]
    intro x hx
    simp only [List.mem_append, List.mem_singleton] at hx
    rcases hx with hx | rfl
    · exact hv x hx
    · rfl

/-- A pair is recorded in the downsets (hash-set side). -/
def sMem (r : Reachability) (p : ID × ID) : Prop :=
  p.2 ∈ (r.downsets.getD p.1 OrderedSet.empty).s

theorem stepDS_eq_insert {r : Reachability} {lhs rhs : ID}
    (hfresh : rhs ∉ (r.downsets.getD lhs OrderedSet.empty).s) :
    stepDS r lhs rhs = ((r.downsets.getD lhs OrderedSet.empty).insert rhs).1 := by
  unfold stepDS OrderedSet.insert
  rw [if_neg hfresh]

theorem stepR_wf {r : Reachability} {lhs rhs : ID} (hW : ReachWF r)
    (hl : lhs < r.downsets.length) (hr : rhs < r.downsets.length)
    (hfresh : rhs ∉ (r.downsets.getD lhs OrderedSet.empty).s) :
    ReachWF (stepR r lhs rhs) := by
  have hup : lhs < r.upsets.length := by rw [hW.1]; exact hl
  have hds : osWF r.downsets.length (stepDS r lhs rhs) := by
    rw [stepDS_eq_insert hfresh]
    exact osWF_insert (osWF_getD hW lhs) hr
  have hlen : (stepR r lhs rhs).downsets.length = r.downsets.length := by
    rw [stepR_downsets, List.length_set]
  refine ⟨?_, ?_, ?_, ?_⟩
  · rw [stepR_downsets, stepR_upsets, List.length_set, List.length_set, hW.1]
  · rw [hlen, stepR_downsets]
    intro os hos
    rcases List.mem_or_eq_of_mem_set hos with h | h
    · exact hW.2.1 os h
    · rw [h]; exact hds
  · rw [hlen, stepR_upsets]
    intro os hos
    rcases List.mem_or_eq_of_mem_set hos with h | h
    · exact hW.2.2.1 os h
    · rw [h]; exact osWF_insert (osWF_getD_up hW lhs) hl
  · rw [stepR_upsets]
    intro i hi x hx
    rw [List.length_set] at hi
    by_cases hilhs : i = lhs
    · subst hilhs
      rw [getD_set_self _ _ _ _ hup] at hx
      exact insert_v_const (upv_self hW i) x hx
    · rw [getD_set_ne _ _ _ (fun hc => hilhs hc.symm)] at hx
      exact hW.2.2.2 i hi x hx

theorem stepPushes_spec {r : Reachability} {lhs rhs : ID} (hW : ReachWF r)
    (hl : lhs < r.downsets.length) (hr : rhs < r.downsets.length)
    (hfresh : rhs ∉ (r.downsets.getD lhs OrderedSet.empty).s) :
    pairsIn r.downsets.length (stepPushes r lhs rhs) ∧
    (stepPushes r lhs rhs).length ≤ r.downsets.length + 1 := by
  have hup : lhs < r.upsets.length := by rw [hW.1]; exact hl
  have hW2 := stepR_wf hW hl hr hfresh
  have hlen : (stepR r lhs rhs).downsets.length = r.downsets.length := by
    rw [stepR_downsets, List.length_set]
  -- the upset read back after the buggy self-insert: all elements are `lhs`
  have hupv : ∀ x ∈ ((stepR r lhs rhs).upsets.getD lhs OrderedSet.empty).v, x = lhs := by
    rw [stepR_upsets, getD_set_self _ _ _ _ hup]
    exact insert_v_const (upv_self hW lhs)
  have hupwf : osWF r.downsets.length ((stepR r lhs rhs).upsets.getD lhs OrderedSet.empty) := by
    have := osWF_getD_up hW2 lhs
    rwa [hlen] at this
  have huplen : ((stepR r lhs rhs).upsets.getD lhs OrderedSet.empty).v.length ≤ 1 :=
    length_le_one_of_nodup_const hupwf.2.2.1 hupv
  have hdownwf : osWF r.downsets.length ((stepR r lhs rhs).downsets.getD rhs OrderedSet.empty) := by
    have := osWF_getD hW2 rhs
    rwa [hlen] at this
  have hdownlen : ((stepR r lhs rhs).downsets.getD rhs OrderedSet.empty).v.length ≤
      r.downsets.length :=
    length_le_of_nodup_lt hdownwf.2.2.1 hdownwf.2.2.2
  constructor
  · intro p hp
    unfold stepPushes at hp
    simp only [List.mem_append, List.mem_map] at hp
    rcases hp with ⟨x, hx, rfl⟩ | ⟨x, hx, rfl⟩
    · exact ⟨by rw [hupv x hx]; exact hl, hr⟩
    · exact ⟨hl, hdownwf.2.2.2 x hx⟩
  · unfold stepPushes
    rw [List.length_append, List.length_map, List.length_map]
    omega

theorem missing_stepR {r : Reachability} {lhs rhs : ID} (hW : ReachWF r)
    (hl : lhs < r.downsets.length) (hr : rhs < r.downsets.length)
    (hfresh : rhs ∉ (r.downsets.getD lhs OrderedSet.empty).s) :
    (lhs, rhs) ∈ missing r ∧
    missing (stepR r lhs rhs) = (missing r).erase (lhs, rhs) := by
  have hvfresh : rhs ∉ (r.downsets.getD lhs OrderedSet.empty).v :=
    fun hc => hfresh ((osWF_getD hW lhs).2.1 rhs hc)
  have hlen : (stepR r lhs rhs).downsets.length = r.downsets.length := by
    rw [stepR_downsets, List.length_set]
  constructor
  · simp only [missing, Finset.mem_filter, Finset.mem_product, Finset.mem_range]
    exact ⟨⟨hl, hr⟩, hvfresh⟩
  · ext p
    obtain ⟨a, b⟩ := p
    simp only [missing, Finset.mem_erase, Finset.mem_filter, Finset.mem_product,
      Finset.mem_range, stepR_downsets, List.length_set, ne_eq, Prod.mk.injEq]
    by_cases hab : a = lhs
    · subst hab
      rw [getD_set_self _ _ _ _ hl]
      unfold stepDS
      simp only [List.mem_append, List.mem_singleton, not_and, not_or]
      tauto
    · rw [getD_set_ne _ _ _ (fun hc => hab hc.symm)]
      simp only [not_and]
      tauto

theorem sMem_mono_stepR {r : Reachability} {lhs rhs : ID} (p : ID × ID)
    (h : sMem r p) : sMem (stepR r lhs rhs) p := by
  unfold sMem at h ⊢
  rw [stepR_downsets]
  by_cases hp : p.1 = lhs
  · subst hp
    by_cases hl : p.1 < r.downsets.length
    · rw [getD_set_self _ _ _ _ hl]
      unfold stepDS
      simp only [List.mem_cons]
      exact Or.inr h
    · rw [List.set_eq_of_length_le (Nat.le_of_not_lt hl)]
      exact h
  · rw [getD_set_ne _ _ _ (fun hc => hp hc.symm)]
    exact h

theorem sMem_stepR_self {r : Reachability} {lhs rhs : ID}
    (hl : lhs < r.downsets.length) : sMem (stepR r lhs rhs) (lhs, rhs) := by
  unfold sMem
  rw [stepR_downsets, getD_set_self _ _ _ _ hl]
  unfold stepDS
  simp

/-- Total-correctness of the `add_edge` work loop: with enough fuel it returns,
preserves well-formedness, and every emitted pair removes exactly one element
from `missing` (each pair is emitted at most once). -/
theorem addEdgeLoop_spec : ∀ (fuel : Nat) (r : Reachability) (work out : List (ID × ID)),
    ReachWF r → pairsIn r.downsets.length work →
    (r.downsets.length + 3) * (missing r).card + work.length < fuel →
    ∃ r' dout, addEdgeLoop fuel r work out = some (r', out ++ dout) ∧
      ReachWF r' ∧ r'.downsets.length = r.downsets.length ∧
      r'.upsets.length = r.upsets.length ∧
      (missing r').card + dout.length = (missing r).card := by
  intro fuel
  induction fuel with
  | zero =>
    intro r work out _ _ hΦ
    omega
  | succ fuel ih =>
    intro r work out hW hin hΦ
    rcases work with _ | ⟨⟨lhs, rhs⟩, work⟩
    · exact ⟨r, [], by simp [addEdgeLoop], hW, rfl, rfl, by simp⟩
    · have hl : lhs < r.downsets.length := (hin _ (List.mem_cons_self _ _)).1
      have hr : rhs < r.downsets.length := (hin _ (List.mem_cons_self _ _)).2
      rw [addEdgeLoop_cons]
      by_cases hmem : rhs ∈ (r.downsets.getD lhs OrderedSet.empty).s
      · rw [if_pos hmem]
        apply ih r work out hW (fun p hp => hin p (List.mem_cons_of_mem _ hp))
        simp only [List.length_cons] at hΦ
        omega
      · rw [if_neg hmem]
        obtain ⟨hmem1, hmem2⟩ := missing_stepR hW hl hr hmem
        have hW2 := stepR_wf hW hl hr hmem
        obtain ⟨hpin, hplen⟩ := stepPushes_spec hW hl hr hmem
        have hlen2 : (stepR r lhs rhs).downsets.length = r.downsets.length := by
          rw [stepR_downsets, List.length_set]
        have huplen2 : (stepR r lhs rhs).upsets.length = r.upsets.length := by
          rw [stepR_upsets, List.length_set]
        have hcard : (missing (stepR r lhs rhs)).card + 1 = (missing r).card := by
          rw [hmem2, Finset.card_erase_of_mem hmem1]
          have := Finset.card_pos.mpr ⟨_, hmem1⟩
          omega
        have hin2 : pairsIn (stepR r lhs rhs).downsets.length
            ((stepPushes r lhs rhs).reverse ++ work) := by
          rw [hlen2]
          intro p hp
          rcases List.mem_append.mp hp with hp | hp
          · exact hpin p (List.mem_reverse.mp hp)
          · exact hin p (List.mem_cons_of_mem _ hp)
        have hΦ2 : ((stepR r lhs rhs).downsets.length + 3) *
            (missing (stepR r lhs rhs)).card +
            ((stepPushes r lhs rhs).reverse ++ work).length < fuel := by
          rw [hlen2, List.length_append, List.length_reverse]
          simp only [List.length_cons] at hΦ
          have hexp : (r.downsets.length + 3) * (missing r).card
              = (r.downsets.length + 3) * (missing (stepR r lhs rhs)).card +
                (r.downsets.length + 3) := by
            rw [← hcard]; ring
          rw [hexp] at hΦ
          omega
        obtain ⟨r', dout, heq, hW', hlen', huplen', hcard'⟩ :=
          ih (stepR r lhs rhs) ((stepPushes r lhs rhs).reverse ++ work)
            (out ++ [(lhs, rhs)]) hW2 hin2 hΦ2
        refine ⟨r', (lhs, rhs) :: dout, ?_, hW', ?_, ?_, ?_⟩
        · rw [heq]
          simp
        · rw [hlen', hlen2]
        · rw [huplen', huplen2]
        · rw [hlen2] at *
          simp only [List.length_cons]
          omega

/-- Invariant preservation through the `add_edge` work loop, for any fuel that
yields a result: the accumulated `out` stays duplicate-free and all its
pairs stay recorded in the downsets. -/
theorem addEdgeLoop_inv : ∀ (fuel : Nat) (r : Reachability) (work out : List (ID × ID))
    (r' : Reachability) (out' : List (ID × ID)),
    addEdgeLoop fuel r work out = some (r', out') →
    ReachWF r → pairsIn r.downsets.length work →
    out.Nodup → (∀ p ∈ out, sMem r p) →
    out'.Nodup ∧ (∀ p ∈ out', sMem r' p) ∧ ReachWF r' ∧
    r'.downsets.length = r.downsets.length := by
  intro fuel
  induction fuel with
  | zero =>
    intro r work out r' out' heq hW hin hnd hsm
    rcases work with _ | ⟨⟨lhs, rhs⟩, work⟩
    · simp only [addEdgeLoop, Option.some.injEq, Prod.mk.injEq] at heq
      obtain ⟨rfl, rfl⟩ := heq
      exact ⟨hnd, hsm, hW, rfl⟩
    · simp [addEdgeLoop] at heq
  | succ fuel ih =>
    intro r work out r' out' heq hW hin hnd hsm
    rcases work with _ | ⟨⟨lhs, rhs⟩, work⟩
    · simp only [addEdgeLoop, Option.some.injEq, Prod.mk.injEq] at heq
      obtain ⟨rfl, rfl⟩ := heq
      exact ⟨hnd, hsm, hW, rfl⟩
    · rw [addEdgeLoop_cons] at heq
      have hl := (hin _ (List.mem_cons_self _ _)).1
      have hr := (hin _ (List.mem_cons_self _ _)).2
      by_cases hmem : rhs ∈ (r.downsets.getD lhs OrderedSet.empty).s
      · rw [if_pos hmem] at heq
        exact ih r work out r' out' heq hW
          (fun p hp => hin p (List.mem_cons_of_mem _ hp)) hnd hsm
      · rw [if_neg hmem] at heq
        have hW2 := stepR_wf hW hl hr hmem
        obtain ⟨hpin, _⟩ := stepPushes_spec hW hl hr hmem
        have hlen2 : (stepR r lhs rhs).downsets.length = r.downsets.length := by
          rw [stepR_downsets, List.length_set]
        have hin2 : pairsIn (stepR r lhs rhs).downsets.length
            ((stepPushes r lhs rhs).reverse ++ work) := by
          rw [hlen2]
          intro p hp
          rcases List.mem_append.mp hp with hp | hp
          · exact hpin p (List.mem_reverse.mp hp)
          · exact hin p (List.mem_cons_of_mem _ hp)
        have hnd2 : (out ++ [(lhs, rhs)]).Nodup := by
          rw [List.nodup_append]
          refine ⟨hnd, List.nodup_singleton _, ?_⟩
          intro p hp hq
          simp only [List.mem_singleton] at hq
          subst hq
          exact hmem (hsm _ hp)
        have hsm2 : ∀ p ∈ out ++ [(lhs, rhs)], sMem (stepR r lhs rhs) p := by
          intro p hp
          rcases List.mem_append.mp hp with hp | hp
          · exact sMem_mono_stepR p (hsm p hp)
          · simp only [List.mem_singleton] at hp
            subst hp
            exact sMem_stepR_self hl
        obtain ⟨h1, h2, h3, h4⟩ := ih _ _ _ _ _ heq hW2 hin2 hnd2 hsm2
        exact ⟨h1, h2, h3, h4.trans hlen2⟩

/-- Weakening the id bound of `osWF`. -/
theorem osWF_mono {n m : Nat} {os : OrderedSet} (h : osWF n os) (hnm : n ≤ m) :
    osWF m os :=
  ⟨h.1, h.2.1, h.2.2.1, fun x hx => Nat.lt_of_lt_of_le (h.2.2.2 x hx) hnm⟩

/-- `add_node` preserves well-formedness. -/
theorem add_node_wf {r : Reachability} (hW : ReachWF r) : ReachWF (r.add_node).1 := by
  obtain ⟨h1, h2, h3, h4⟩ := hW
  unfold Reachability.add_node
  refine ⟨by simp [h1], ?_, ?_, ?_⟩
  · intro os hos
    rcases List.mem_append.mp hos with h | h
    · exact osWF_mono (h2 os h) (by simp)
    · simp only [List.mem_singleton] at h
      subst h
      exact ⟨by simp [OrderedSet.empty], by simp [OrderedSet.empty],
        by simp [OrderedSet.empty], by simp [OrderedSet.empty]⟩
  · intro os hos
    rcases List.mem_append.mp hos with h | h
    · exact osWF_mono (h3 os h) (by simp)
    · simp only [List.mem_singleton] at h
      subst h
      exact ⟨by simp [OrderedSet.empty], by simp [OrderedSet.empty],
        by simp [OrderedSet.empty], by simp [OrderedSet.empty]⟩
  · intro i hi x hx
    simp only [List.length_append, List.length_singleton] at hi
    by_cases hlt : i < r.upsets.length
    · rw [List.getD_append _ _ _ _ hlt] at hx
      exact h4 i hlt x hx
    · have : i = r.upsets.length := by omega
      subst this
      rw [List.getD_eq_getElem _ _ (by simp), List.getElem_append_right (Nat.le_refl _)] at hx
      simp [OrderedSet.empty] at hx

/-- `add_node` does not disturb recorded pairs. -/
theorem sMem_mono_add_node {r : Reachability} (p : ID × ID) (h : sMem r p) :
    sMem (r.add_node).1 p := by
  unfold sMem Reachability.add_node at *
  by_cases hlt : p.1 < r.downsets.length
  · rwa [List.getD_append _ _ _ _ hlt]
  · rw [List.getD_eq_default _ _ (Nat.le_of_not_lt hlt)] at h
    simp [OrderedSet.empty] at h

/-- A graph operation: allocate a node, or add an edge (with both endpoints
required in range — Rust panics on out-of-range indices). -/
inductive GraphOp
  | node : GraphOp
  | edge (lhs rhs : ID) : GraphOp

/-- Run a lifetime of graph operations starting from a given state, feeding
one shared `out` vector to every `add_edge` call. -/
def runOps : Nat → Reachability → List (ID × ID) → List GraphOp →
    Option (Reachability × List (ID × ID))
  | _, r, out, [] => some (r, out)
  | fuel, r, out, .node :: rest => runOps fuel (r.add_node).1 out rest
  | fuel, r, out, .edge lhs rhs :: rest =>
    if lhs < r.downsets.length ∧ rhs < r.downsets.length then
      match r.add_edge fuel lhs rhs out with
      | none => none
      | some (r', out') => runOps fuel r' out' rest
    else
      none

theorem runOps_inv : ∀ (ops : List GraphOp) (fuel : Nat) (r : Reachability)
    (out : List (ID × ID)) (r' : Reachability) (out' : List (ID × ID)),
    runOps fuel r out ops = some (r', out') →
    ReachWF r → out.Nodup → (∀ p ∈ out, sMem r p) →
    out'.Nodup := by
  intro ops
  induction ops with
  | nil =>
    intro fuel r out r' out' heq hW hnd hsm
    simp only [runOps, Option.some.injEq, Prod.mk.injEq] at heq
    obtain ⟨rfl, rfl⟩ := heq
    exact hnd
  | cons op rest ih =>
    intro fuel r out r' out' heq hW hnd hsm
    cases op with
    | node =>
      simp only [runOps] at heq
      exact ih fuel _ out r' out' heq (add_node_wf hW) hnd
        (fun p hp => sMem_mono_add_node p (hsm p hp))
    | edge lhs rhs =>
      simp only [runOps] at heq
      by_cases hran : lhs < r.downsets.length ∧ rhs < r.downsets.length
      · rw [if_pos hran] at heq
        rcases hmatch : r.add_edge fuel lhs rhs out with _ | ⟨r1, out1⟩
        · rw [hmatch] at heq
          simp at heq
        · rw [hmatch] at heq
          have hin1 : pairsIn r.downsets.length [(lhs, rhs)] := by
            intro p hp
            simp only [List.mem_singleton] at hp
            subst hp
            exact hran
          obtain ⟨h1, h2, h3, h4⟩ :=
            addEdgeLoop_inv fuel r [(lhs, rhs)] out r1 out1 hmatch hW hin1 hnd hsm
          exact ih fuel r1 out1 r' out' heq h3 h1 h2
      · rw [if_neg hran] at heq
        simp at heq

/-- If every work item is already recorded, the work loop drains without
touching the state or the output. -/
theorem addEdgeLoop_skips : ∀ (work : List (ID × ID)) (fuel : Nat) (r : Reachability)
    (out : List (ID × ID)),
    work.length ≤ fuel →
    (∀ p ∈ work, sMem r p) →
    addEdgeLoop fuel r work out = some (r, out) := by
  intro work
  induction work with
  | nil =>
    intro fuel r out _ _
    cases fuel <;> simp [addEdgeLoop]
  | cons p work ih =>
    intro fuel r out hf hsm
    obtain ⟨lhs, rhs⟩ := p
    rcases fuel with _ | fuel
    · simp at hf
    · have hm : rhs ∈ (r.downsets.getD lhs OrderedSet.empty).s :=
        hsm _ (List.mem_cons_self _ _)
      rw [addEdgeLoop_cons, if_pos hm]
      exact ih fuel r out (by simpa using hf) (fun q hq => hsm q (List.mem_cons_of_mem _ hq))

/-- C6.  Across the whole lifetime of a reachability graph (any sequence of
`add_node` / `add_edge` operations from the empty graph, all feeding one `out`
vector), each pair is appended to `out` at most once; and calling
`add_edge(lhs, rhs, out)` when `rhs` is already in `downset[lhs]` is a no-op
that leaves both `out` and the graph unchanged. -/
theorem add_edge_emits_each_pair_once :
    (∀ (ops : List GraphOp) (fuel : Nat) (r' : Reachability) (out' : List (ID × ID)),
        runOps fuel Reachability.empty [] ops = some (r', out') → out'.Nodup) ∧
    (∀ (fuel : Nat) (r : Reachability) (lhs rhs : ID) (out : List (ID × ID)),
        rhs ∈ (r.downsets.getD lhs OrderedSet.empty).s →
        r.add_edge (fuel + 1) lhs rhs out = some (r, out)) := by
  constructor
  · intro ops fuel r' out' heq
    refine runOps_inv ops fuel Reachability.empty [] r' out' heq ?_ (by simp) (by simp)
    refine ⟨rfl, ?_, ?_, ?_⟩ <;> simp [Reachability.empty]
  · intro fuel r lhs rhs out hmem
    unfold Reachability.add_edge
    rw [addEdgeLoop_cons, if_pos hmem]
    cases fuel <;> simp [addEdgeLoop]

/-- C6 witness: a concrete lifetime (two nodes, the edge `0 → 1` twice) emits
a duplicate-free `out`, and the concrete repeated `add_edge` is a no-op. -/
theorem add_edge_emits_each_pair_once_witness :
    (∀ r' out', runOps 10 Reachability.empty []
        [GraphOp.node, GraphOp.node, GraphOp.edge 0 1, GraphOp.edge 0 1] = some (r', out') →
        out'.Nodup) ∧
    (Reachability.add_edge ⟨[⟨[0], [0]⟩, ⟨[], []⟩], [⟨[1], [1]⟩, ⟨[], []⟩]⟩ 8 0 1 [(0, 1)] =
      some (⟨[⟨[0], [0]⟩, ⟨[], []⟩], [⟨[1], [1]⟩, ⟨[], []⟩]⟩, [(0, 1)])) :=
  ⟨fun r' out' heq => add_edge_emits_each_pair_once.1 _ 10 r' out' heq,
   add_edge_emits_each_pair_once.2 7 _ 0 1 [(0, 1)] (by decide)⟩

/-- A list of length ≤ 1 containing `a` is `[a]`. -/
theorem eq_singleton_of_mem_of_len_le_one {l : List Nat} {a : Nat}
    (h : a ∈ l) (hl : l.length ≤ 1) : l = [a] := by
  match l, h, hl with
  | [x], h, _ =>
    simp only [List.mem_singleton] at h
    rw [h]
  | x :: y :: t, _, hl => simp at hl

/-- The upset of `a` after the loop's self-insert is exactly `[a]`, in any
well-formed state. -/
theorem upset_insert_self {r : Reachability} {a : ID} (hW : ReachWF r) :
    (((r.upsets.getD a OrderedSet.empty).insert a).1).v = [a] := by
  have hwf := osWF_getD_up hW a
  have hconst := upv_self hW a
  have hlen : (r.upsets.getD a OrderedSet.empty).v.length ≤ 1 :=
    length_le_one_of_nodup_const hwf.2.2.1 hconst
  unfold OrderedSet.insert
  by_cases hmem : a ∈ (r.upsets.getD a OrderedSet.empty).s
  · rw [if_pos hmem]
    exact eq_singleton_of_mem_of_len_le_one (hwf.1 a hmem) hlen
  · rw [if_neg hmem]
    have hv : (r.upsets.getD a OrderedSet.empty).v = [] := by
      rcases hl2 : (r.upsets.getD a OrderedSet.empty).v with _ | ⟨x, t⟩
      · rfl
      · exfalso
        have hx : x = a := hconst x (by rw [hl2]; simp)
        exact hmem (hwf.2.1 a (by rw [hl2, hx]; simp))
    show ((r.upsets.getD a OrderedSet.empty).v ++ [a]) = [a]
    rw [hv]
    rfl

/-- C5 amended.  A self-loop `add_edge(a, a, out)` appends exactly the single
pair `(a, a)` to `out` when `a ∉ downset[a]`, and leaves `out` (and the graph)
unchanged when `a ∈ downset[a]`. -/
theorem self_loop_emits_exactly_once :
    (∀ (fuel : Nat) (r : Reachability) (a : ID) (out : List (ID × ID)),
        a ∈ (r.downsets.getD a OrderedSet.empty).s →
        r.add_edge (fuel + 1) a a out = some (r, out)) ∧
    (∀ (fuel : Nat) (r : Reachability) (a : ID) (out : List (ID × ID)),
        ReachWF r → a < r.downsets.length →
        a ∉ (r.downsets.getD a OrderedSet.empty).s →
        (r.downsets.getD a OrderedSet.empty).v.length + 3 ≤ fuel →
        r.add_edge fuel a a out = some (stepR r a a, out ++ [(a, a)])) := by
  constructor
  · intro fuel r a out hmem
    unfold Reachability.add_edge
    rw [addEdgeLoop_cons, if_pos hmem]
    cases fuel <;> simp [addEdgeLoop]
  · intro fuel r a out hW hl hfresh hf
    obtain ⟨fuel, rfl⟩ : ∃ f, fuel = ((r.downsets.getD a OrderedSet.empty).v.length + 2) + f + 1 := by
      refine ⟨fuel - ((r.downsets.getD a OrderedSet.empty).v.length + 3), ?_⟩
      omega
    unfold Reachability.add_edge
    rw [addEdgeLoop_cons, if_neg hfresh]
    apply addEdgeLoop_skips
    · -- the pushed work has length (|upset'| = 1) + (|downset| + 1)
      unfold stepPushes
      rw [List.length_append, List.length_reverse, List.length_append,
        List.length_map, List.length_map, stepR_upsets,
        getD_set_self _ _ _ _ (by rw [hW.1]; exact hl), upset_insert_self hW,
        stepR_downsets, getD_set_self _ _ _ _ hl]
      unfold stepDS
      simp only [List.length_singleton, List.length_append, List.length_nil]
      omega
    · intro p hp
      rcases List.mem_append.mp hp with hp | hp
      · rw [List.mem_reverse] at hp
        unfold stepPushes at hp
        rcases List.mem_append.mp hp with hp | hp
        · simp only [List.mem_map] at hp
          obtain ⟨x, hx, rfl⟩ := hp
          rw [stepR_upsets, getD_set_self _ _ _ _ (by rw [hW.1]; exact hl),
            upset_insert_self hW] at hx
          have hx' : x = a := by simpa using hx
          subst hx'
          exact sMem_stepR_self hl
        · simp only [List.mem_map] at hp
          obtain ⟨x, hx, rfl⟩ := hp
          rw [stepR_downsets, getD_set_self _ _ _ _ hl] at hx
          unfold stepDS at hx
          unfold sMem
          rw [stepR_downsets, getD_set_self _ _ _ _ hl]
          unfold stepDS
          simp only [List.mem_append, List.mem_cons, List.not_mem_nil, or_false] at hx ⊢
          rcases hx with hx | rfl
          · exact Or.inr ((osWF_getD hW a).2.1 x hx)
          · exact Or.inl rfl
      · simp at hp

/-- C5 amended witness: on a single fresh node, the first self-loop emits
exactly `(0, 0)` and the second self-loop is a no-op. -/
theorem self_loop_emits_exactly_once_witness :
    r1node.add_edge 3 0 0 [] = some (stepR r1node 0 0, [(0, 0)]) ∧
    Reachability.add_edge ⟨[⟨[0], [0]⟩], [⟨[0], [0]⟩]⟩ 5 0 0 [(0, 0)] =
      some (⟨[⟨[0], [0]⟩], [⟨[0], [0]⟩]⟩, [(0, 0)]) :=
  ⟨by
    have h := self_loop_emits_exactly_once.2 3 r1node 0 [] (by decide) (by decide)
      (by decide) (by decide)
    simpa using h,
   self_loop_emits_exactly_once.1 4 _ 0 [(0, 0)] (by decide)⟩

/-! ### The polarized type store (`ty.rs`) -/

instance {ε α : Type} [DecidableEq ε] [DecidableEq α] : DecidableEq (Except ε α) :=
  fun x y =>
    match x, y with
    | .ok a, .ok b =>
      match decEq a b with
      | isTrue h => isTrue (by rw [h])
      | isFalse h => isFalse (fun hc => h (by cases hc; rfl))
    | .error a, .error b =>
      match decEq a b with
      | isTrue h => isTrue (by rw [h])
      | isFalse h => isFalse (fun hc => h (by cases hc; rfl))
    | .ok _, .error _ => isFalse (fun hc => by cases hc)
    | .error _, .ok _ => isFalse (fun hc => by cases hc)

/-- `Value(ID)` handle from `ty.rs`. -/
structure Value where
  id : ID
deriving Repr, DecidableEq

/-- `Use(ID)` handle from `ty.rs`. -/
structure Use where
  id : ID
deriving Repr, DecidableEq

/-- `VTypeHead`.  The `HashMap<String, Value>` of `VObj` is embedded as an
association list; the code observes it only through `get`, embedded below as
last-insert-wins lookup (`hmGet`), matching a `HashMap` built by `collect`. -/
inductive VTypeHead
  | VBool
  | VFunc (arg : Use) (ret : Value)
  | VObj (fields : List (String × Value))
  | VCase (case : String × Value)
deriving Repr, DecidableEq

/-- `UTypeHead`. -/
inductive UTypeHead
  | UBool
  | UFunc (arg : Value) (ret : Use)
  | UObj (field : String × Use)
  | UCase (cases : List (String × Use))
deriving Repr, DecidableEq

/-- `HashMap::get` over an association list built by `collect`/`insert`:
the last binding of a key wins. -/
def hmGet {α : Type} (m : List (String × α)) (k : String) : Option α :=
  (m.reverse.find? (fun p => p.1 == k)).map (fun p => p.2)

/-- `check_heads` (`ty.rs` lines 68-104).  The `&mut out` push-parameter is
embedded as the returned list, in push order. -/
def check_heads (lhs : VTypeHead) (rhs : UTypeHead) :
    Except String (List (Value × Use)) :=
  match lhs, rhs with
  | .VBool, .UBool => .ok []
  | .VFunc arg1 ret1, .UFunc arg2 ret2 => .ok [(ret1, ret2), (arg2, arg1)]
  | .VObj fields, .UObj (name, rhs2) =>
    match hmGet fields name with
    | some lhs2 => .ok [(lhs2, rhs2)]
    | none => .error ("Missing field: " ++ name)
  | .VCase (name, lhs2), .UCase cases =>
    match hmGet cases name with
    | some rhs2 => .ok [(lhs2, rhs2)]
    | none => .error ("Unhandled case: " ++ name)
  | _, _ => .error "Unexpected types"

/-- `TypeNode`. -/
inductive TypeNode
  | Var
  | Value (head : VTypeHead)
  | Use (head : UTypeHead)
deriving Repr, DecidableEq

/-- `TypeCheckerCore`: the reachability graph and the parallel node table. -/
structure TypeCheckerCore where
  r : Reachability
  types : List TypeNode
deriving Repr, DecidableEq

/-- `TypeCheckerCore::new`. -/
def TypeCheckerCore.new : TypeCheckerCore := ⟨Reachability.empty, []⟩

/-- `new_val`: allocate a node carrying a value head (the `assert!` that ids
stay in lockstep holds by construction here). -/
def TypeCheckerCore.new_val (c : TypeCheckerCore) (val_type : VTypeHead) :
    TypeCheckerCore × Value :=
  let (r', i) := c.r.add_node
  (⟨r', c.types ++ [TypeNode.Value val_type]⟩, ⟨i⟩)

/-- `new_use`. -/
def TypeCheckerCore.new_use (c : TypeCheckerCore) (constraint : UTypeHead) :
    TypeCheckerCore × Use :=
  let (r', i) := c.r.add_node
  (⟨r', c.types ++ [TypeNode.Use constraint]⟩, ⟨i⟩)

/-- `var`: a flexible node, returning both facets of the same id. -/
def TypeCheckerCore.var (c : TypeCheckerCore) : TypeCheckerCore × Value × Use :=
  let (r', i) := c.r.add_node
  (⟨r', c.types ++ [TypeNode.Var]⟩, ⟨i⟩, ⟨i⟩)

/-- `bool`. -/
def TypeCheckerCore.bool (c : TypeCheckerCore) : TypeCheckerCore × Value :=
  c.new_val .VBool

/-- `bool_use`. -/
def TypeCheckerCore.bool_use (c : TypeCheckerCore) : TypeCheckerCore × Use :=
  c.new_use .UBool

/-- `func`. -/
def TypeCheckerCore.func (c : TypeCheckerCore) (arg : Use) (ret : Value) :
    TypeCheckerCore × Value :=
  c.new_val (.VFunc arg ret)

/-- `func_use`. -/
def TypeCheckerCore.func_use (c : TypeCheckerCore) (arg : Value) (ret : Use) :
    TypeCheckerCore × Use :=
  c.new_use (.UFunc arg ret)

/-- `obj` (the `collect` into a `HashMap` keeps the pairs; lookups go through
`hmGet`). -/
def TypeCheckerCore.obj (c : TypeCheckerCore) (fields : List (String × Value)) :
    TypeCheckerCore × Value :=
  c.new_val (.VObj fields)

/-- `obj_use`. -/
def TypeCheckerCore.obj_use (c : TypeCheckerCore) (field : String × Use) :
    TypeCheckerCore × Use :=
  c.new_use (.UObj field)

/-- `case`. -/
def TypeCheckerCore.case (c : TypeCheckerCore) (cs : String × Value) :
    TypeCheckerCore × Value :=
  c.new_val (.VCase cs)

/-- `case_use`. -/
def TypeCheckerCore.case_use (c : TypeCheckerCore) (cases : List (String × Use)) :
    TypeCheckerCore × Use :=
  c.new_use (.UCase cases)

/-- The inner drain of `type_pairs_to_check` in `flow`: pairs are popped from
the `Vec`'s end, so the caller passes the emitted list reversed.  Head checks
push onto `pending_edges` (a stack with its top at the head here). -/
def processPairsRev (core : TypeCheckerCore) :
    List (ID × ID) → List (Value × Use) → Except String (List (Value × Use))
  | [], pending => .ok pending
  | (l, u) :: rest, pending =>
    match core.types.getD l TypeNode.Var, core.types.getD u TypeNode.Var with
    | TypeNode.Value lhs_head, TypeNode.Use rhs_head =>
      match check_heads lhs_head rhs_head with
      | .ok pushes => processPairsRev core rest (pushes.reverse ++ pending)
      | .error e => .error e
    | _, _ => processPairsRev core rest pending

/-- The outer fixed-point loop of `flow`: pop a pending edge, install it via
`add_edge` (the freshly-drained `type_pairs_to_check` buffer starts empty),
then drain the emitted pairs.  An error returns the mutated state with the
error, as the Rust `?` does. -/
def flowLoop : Nat → TypeCheckerCore → List (Value × Use) →
    Option (TypeCheckerCore × Except String Unit)
  | _, core, [] => some (core, .ok ())
  | 0, _, _ :: _ => none
  | fuel + 1, core, (l, u) :: pending =>
    match addEdgeLoop (fuel + 1) core.r [(l.id, u.id)] [] with
    | none => none
    | some (r', tp) =>
      let core' : TypeCheckerCore := { core with r := r' }
      match processPairsRev core' tp.reverse pending with
      | .error e => some (core', .error e)
      | .ok pending' => flowLoop fuel core' pending'

/-- `TypeCheckerCore::flow`. -/
def TypeCheckerCore.flow (c : TypeCheckerCore) (fuel : Nat) (lhs : Value) (rhs : Use) :
    Option (TypeCheckerCore × Except String Unit) :=
  flowLoop fuel c [(lhs, rhs)]

/-- C7.  `check_heads` behaves exactly per the rules table: booleans match
silently; functions emit the covariant return pair then the contravariant
argument pair; objects project the requested field or fail with a
missing-field error; cases project the covered tag or fail with an
unhandled-case error; all twelve remaining head combinations fail with
"Unexpected types". -/
theorem check_heads_table :
    (check_heads .VBool .UBool = .ok []) ∧
    (∀ a1 r1 a2 r2, check_heads (.VFunc a1 r1) (.UFunc a2 r2) =
      .ok [(r1, r2), (a2, a1)]) ∧
    (∀ fields name ru, check_heads (.VObj fields) (.UObj (name, ru)) =
      match hmGet fields name with
      | some lv => .ok [(lv, ru)]
      | none => .error ("Missing field: " ++ name)) ∧
    (∀ tag lv cases, check_heads (.VCase (tag, lv)) (.UCase cases) =
      match hmGet cases tag with
      | some ru => .ok [(lv, ru)]
      | none => .error ("Unhandled case: " ++ tag)) ∧
    (∀ a r, check_heads .VBool (.UFunc a r) = .error "Unexpected types") ∧
    (∀ f, check_heads .VBool (.UObj f) = .error "Unexpected types") ∧
    (∀ cs, check_heads .VBool (.UCase cs) = .error "Unexpected types") ∧
    (∀ a r, check_heads (.VFunc a r) .UBool = .error "Unexpected types") ∧
    (∀ a r f, check_heads (.VFunc a r) (.UObj f) = .error "Unexpected types") ∧
    (∀ a r cs, check_heads (.VFunc a r) (.UCase cs) = .error "Unexpected types") ∧
    (∀ fs, check_heads (.VObj fs) .UBool = .error "Unexpected types") ∧
    (∀ fs a r, check_heads (.VObj fs) (.UFunc a r) = .error "Unexpected types") ∧
    (∀ fs cs, check_heads (.VObj fs) (.UCase cs) = .error "Unexpected types") ∧
    (∀ c, check_heads (.VCase c) .UBool = .error "Unexpected types") ∧
    (∀ c a r, check_heads (.VCase c) (.UFunc a r) = .error "Unexpected types") ∧
    (∀ c f, check_heads (.VCase c) (.UObj f) = .error "Unexpected types") :=
  ⟨rfl, fun _ _ _ _ => rfl, fun _ _ _ => rfl, fun _ _ _ => rfl,
   fun _ _ => rfl, fun _ => rfl, fun _ => rfl,
   fun _ _ => rfl, fun _ _ _ => rfl, fun _ _ _ => rfl,
   fun _ => rfl, fun _ _ _ => rfl, fun _ _ => rfl,
   fun _ => rfl, fun _ _ _ => rfl, fun _ _ => rfl⟩

/-- A four-node store: `var()` (node 0), `bool_use()` (node 1),
`func_use(Value 0, Use 1)` (node 2), `func(Use 0, Value 0)` (node 3). -/
def c8core : TypeCheckerCore :=
  let c0 := TypeCheckerCore.new
  let (c1, _v0, _u0) := c0.var
  let (c2, _u1) := c1.bool_use
  let (c3, _u2) := c2.func_use ⟨0⟩ ⟨1⟩
  let (c4, _v3) := c3.func ⟨0⟩ ⟨0⟩
  c4

/-- Result of running `flow(Value 0, Use 2)` then `flow(Value 3, Use 0)` on
`c8core`. -/
def c8run : Option (TypeCheckerCore × Except String Unit) := do
  let (c5, res1) ← c8core.flow 50 ⟨0⟩ ⟨2⟩
  match res1 with
  | .error _ => none
  | .ok () => c5.flow 50 ⟨3⟩ ⟨0⟩

/-- The state after the two flows of `c8run`. -/
def c8final : TypeCheckerCore :=
  { r := { upsets := [⟨[0], [0]⟩, ⟨[], []⟩, ⟨[], []⟩, ⟨[3], [3]⟩],
           downsets := [⟨[2, 0, 1], [1, 0, 2]⟩, ⟨[], []⟩, ⟨[], []⟩, ⟨[0, 2], [2, 0]⟩] },
    types := [TypeNode.Var, TypeNode.Use .UBool,
              TypeNode.Use (.UFunc ⟨0⟩ ⟨1⟩), TypeNode.Value (.VFunc ⟨0⟩ ⟨0⟩)] }

/-- C8.  The claim asserts that after any successful `flow(v, u)` every
value-head node in `upset[v]` is compatible with every use-head node in
`downset[u]`.  The code violates it: `flow(Value 3, Use 0)` on `c8core`
(after a successful `flow(Value 0, Use 2)`) returns success, yet node 3
(a `VFunc` value head) is in `upset[3]` and node 1 (a `UBool` use head) is in
`downset[0]`, and `check_heads(VFunc, UBool)` is a type error.  The upward
propagation that would have caught the pair `(3, 1)` relies on `upsets`,
which line 49 of `reachability.rs` fills incorrectly. -/
theorem flow_succeeds_with_incompatible_heads :
    c8run = some (c8final, .ok ()) ∧
    (3 : ID) ∈ c8final.r.upv 3 ∧
    c8final.types.getD 3 TypeNode.Var = .Value (.VFunc ⟨0⟩ ⟨0⟩) ∧
    (1 : ID) ∈ c8final.r.downv 0 ∧
    c8final.types.getD 1 TypeNode.Var = .Use .UBool ∧
    check_heads (.VFunc ⟨0⟩ ⟨0⟩) .UBool = .error "Unexpected types" := by
  decide

/-! ### Termination of the `flow` fixed point -/

/-- All handles inside a node's head are valid ids below `n`. -/
def headOK (n : Nat) : TypeNode → Prop
  | .Var => True
  | .Value .VBool => True
  | .Value (.VFunc a r) => a.id < n ∧ r.id < n
  | .Value (.VObj fields) => ∀ p ∈ fields, (p.2 : Value).id < n
  | .Value (.VCase c) => c.2.id < n
  | .Use .UBool => True
  | .Use (.UFunc a r) => a.id < n ∧ r.id < n
  | .Use (.UObj f) => f.2.id < n
  | .Use (.UCase cases) => ∀ p ∈ cases, (p.2 : Use).id < n

instance (n : Nat) : (t : TypeNode) → Decidable (headOK n t)
  | .Var => isTrue trivial
  | .Value .VBool => isTrue trivial
  | .Value (.VFunc a r) => inferInstanceAs (Decidable (a.id < n ∧ r.id < n))
  | .Value (.VObj fields) => inferInstanceAs (Decidable (∀ p ∈ fields, (p.2 : Value).id < n))
  | .Value (.VCase c) => inferInstanceAs (Decidable (c.2.id < n))
  | .Use .UBool => isTrue trivial
  | .Use (.UFunc a r) => inferInstanceAs (Decidable (a.id < n ∧ r.id < n))
  | .Use (.UObj f) => inferInstanceAs (Decidable (f.2.id < n))
  | .Use (.UCase cases) => inferInstanceAs (Decidable (∀ p ∈ cases, (p.2 : Use).id < n))

/-- Well-formedness of the whole type store: the graph is well-formed, the
node table and graph stay in lockstep (the `assert!`s of `ty.rs`), and every
head references valid ids. -/
def CoreWF (c : TypeCheckerCore) : Prop :=
  ReachWF c.r ∧ c.types.length = c.r.downsets.length ∧
  ∀ t ∈ c.types, headOK c.types.length t

instance (c : TypeCheckerCore) : Decidable (CoreWF c) := by
  unfold CoreWF; infer_instance

theorem hmGet_mem {α : Type} {m : List (String × α)} {k : String} {v : α}
    (h : hmGet m k = some v) : ∃ p ∈ m, p.2 = v := by
  unfold hmGet at h
  cases hf : m.reverse.find? (fun p => p.1 == k) with
  | none => rw [hf] at h; simp at h
  | some p =>
    rw [hf] at h
    simp at h
    exact ⟨p, List.mem_reverse.mp (List.mem_of_find?_eq_some hf), h⟩

/-- When `check_heads` succeeds it pushes at most two pairs, all of whose
handles come from the two heads. -/
theorem check_heads_ok_facts {n : Nat} {lh : VTypeHead} {uh : UTypeHead}
    {pushes : List (Value × Use)}
    (hl : headOK n (.Value lh)) (hu : headOK n (.Use uh))
    (h : check_heads lh uh = .ok pushes) :
    pushes.length ≤ 2 ∧ ∀ p ∈ pushes, p.1.id < n ∧ p.2.id < n := by
  cases lh with
  | VBool =>
    cases uh with
    | UBool =>
      simp only [check_heads, Except.ok.injEq] at h
      subst h
      exact ⟨by simp, by simp⟩
    | UFunc a r => simp [check_heads] at h
    | UObj f => obtain ⟨nm, ru⟩ := f; simp [check_heads] at h
    | UCase cs => simp [check_heads] at h
  | VFunc a1 r1 =>
    cases uh with
    | UBool => simp [check_heads] at h
    | UFunc a2 r2 =>
      simp only [check_heads, Except.ok.injEq] at h
      subst h
      refine ⟨by simp, ?_⟩
      intro p hp
      simp only [List.mem_cons, List.not_mem_nil, or_false] at hp
      rcases hp with rfl | rfl
      · exact ⟨hl.2, hu.2⟩
      · exact ⟨hu.1, hl.1⟩
    | UObj f => obtain ⟨nm, ru⟩ := f; simp [check_heads] at h
    | UCase cs => simp [check_heads] at h
  | VObj fields =>
    cases uh with
    | UBool => simp [check_heads] at h
    | UFunc a r => simp [check_heads] at h
    | UObj f =>
      obtain ⟨nm, ru⟩ := f
      simp only [check_heads] at h
      cases hg : hmGet fields nm with
      | none => rw [hg] at h; simp at h
      | some lv =>
        rw [hg] at h
        simp only [Except.ok.injEq] at h
        subst h
        refine ⟨by simp, ?_⟩
        intro p hp
        simp only [List.mem_singleton] at hp
        subst hp
        obtain ⟨q, hq, hq2⟩ := hmGet_mem hg
        exact ⟨hq2 ▸ hl q hq, hu⟩
    | UCase cs => simp [check_heads] at h
  | VCase c =>
    obtain ⟨tag, lv⟩ := c
    cases uh with
    | UBool => simp [check_heads] at h
    | UFunc a r => simp [check_heads] at h
    | UObj f => obtain ⟨nm, ru⟩ := f; simp [check_heads] at h
    | UCase cs =>
      simp only [check_heads] at h
      cases hg : hmGet cs tag with
      | none => rw [hg] at h; simp at h
      | some ru =>
        rw [hg] at h
        simp only [Except.ok.injEq] at h
        subst h
        refine ⟨by simp, ?_⟩
        intro p hp
        simp only [List.mem_singleton] at hp
        subst hp
        obtain ⟨q, hq, hq2⟩ := hmGet_mem hg
        exact ⟨hl, hq2 ▸ hu q hq⟩

/-- If a node lookup yields a head, the index is in range and the node is in
the table. -/
theorem getD_types_mem {c : TypeCheckerCore} {i : ID} {t : TypeNode}
    (h : c.types.getD i TypeNode.Var = t) (hne : t ≠ TypeNode.Var) :
    t ∈ c.types := by
  by_cases hi : i < c.types.length
  · rw [List.getD_eq_getElem _ _ hi] at h
    rw [← h]
    exact List.getElem_mem hi
  · rw [List.getD_eq_default _ _ (Nat.le_of_not_lt hi)] at h
    exact absurd h.symm hne

/-- The inner drain either fails or extends `pending` with at most two
in-range pairs per processed reachability pair. -/
theorem processPairsRev_spec (core : TypeCheckerCore) (hW : CoreWF core) :
    ∀ (tp : List (ID × ID)) (pending : List (Value × Use)),
    (∃ e, processPairsRev core tp pending = .error e) ∨
    (∃ delta, processPairsRev core tp pending = .ok (delta ++ pending) ∧
      delta.length ≤ 2 * tp.length ∧
      ∀ p ∈ delta, p.1.id < core.r.downsets.length ∧
        p.2.id < core.r.downsets.length) := by
  intro tp
  induction tp with
  | nil =>
    intro pending
    right
    exact ⟨[], rfl, by simp, by simp⟩
  | cons hd rest ih =>
    intro pending
    obtain ⟨l, u⟩ := hd
    cases hlt : core.types.getD l TypeNode.Var with
    | Value lhs_head =>
      cases hut : core.types.getD u TypeNode.Var with
      | Use rhs_head =>
        have hlOK : headOK core.r.downsets.length (TypeNode.Value lhs_head) := by
          have := hW.2.2 _ (getD_types_mem hlt (by simp))
          rwa [hW.2.1] at this
        have huOK : headOK core.r.downsets.length (TypeNode.Use rhs_head) := by
          have := hW.2.2 _ (getD_types_mem hut (by simp))
          rwa [hW.2.1] at this
        cases hch : check_heads lhs_head rhs_head with
        | error e =>
          left
          refine ⟨e, ?_⟩
          simp only [processPairsRev, hlt, hut, hch]
        | ok pushes =>
          have heq : processPairsRev core ((l, u) :: rest) pending =
              processPairsRev core rest (pushes.reverse ++ pending) := by
            simp only [processPairsRev, hlt, hut, hch]
          obtain ⟨hlen2, hran2⟩ := check_heads_ok_facts hlOK huOK hch
          rcases ih (pushes.reverse ++ pending) with ⟨e, herr⟩ | ⟨delta, hok, hdl, hdr⟩
          · left
            exact ⟨e, heq.trans herr⟩
          · right
            refine ⟨delta ++ pushes.reverse, ?_, ?_, ?_⟩
            · rw [heq, hok, List.append_assoc]
            · rw [List.length_append, List.length_reverse, List.length_cons]
              omega
            · intro p hp
              rcases List.mem_append.mp hp with hp | hp
              · exact hdr p hp
              · exact hran2 p (List.mem_reverse.mp hp)
      | Var =>
        have heq : processPairsRev core ((l, u) :: rest) pending =
            processPairsRev core rest pending := by
          simp only [processPairsRev, hlt, hut]
        rcases ih pending with ⟨e, herr⟩ | ⟨delta, hok, hdl, hdr⟩
        · exact Or.inl ⟨e, heq.trans herr⟩
        · exact Or.inr ⟨delta, heq.trans hok, by simp only [List.length_cons]; omega, hdr⟩
      | Value vh =>
        have heq : processPairsRev core ((l, u) :: rest) pending =
            processPairsRev core rest pending := by
          simp only [processPairsRev, hlt, hut]
        rcases ih pending with ⟨e, herr⟩ | ⟨delta, hok, hdl, hdr⟩
        · exact Or.inl ⟨e, heq.trans herr⟩
        · exact Or.inr ⟨delta, heq.trans hok, by simp only [List.length_cons]; omega, hdr⟩
    | Var =>
      have heq : processPairsRev core ((l, u) :: rest) pending =
          processPairsRev core rest pending := by
        simp only [processPairsRev, hlt]
      rcases ih pending with ⟨e, herr⟩ | ⟨delta, hok, hdl, hdr⟩
      · exact Or.inl ⟨e, heq.trans herr⟩
      · exact Or.inr ⟨delta, heq.trans hok, by simp only [List.length_cons]; omega, hdr⟩
    | Use uh =>
      have heq : processPairsRev core ((l, u) :: rest) pending =
          processPairsRev core rest pending := by
        simp only [processPairsRev, hlt]
      rcases ih pending with ⟨e, herr⟩ | ⟨delta, hok, hdl, hdr⟩
      · exact Or.inl ⟨e, heq.trans herr⟩
      · exact Or.inr ⟨delta, heq.trans hok, by simp only [List.length_cons]; omega, hdr⟩

/-- With enough fuel, the outer fixed-point loop of `flow` returns (either
success or the first head mismatch); the potential combines the missing
reachability pairs (bounded by `|V|²`) and the pending worklist. -/
theorem flowLoop_total : ∀ (fuel : Nat) (core : TypeCheckerCore)
    (pending : List (Value × Use)),
    CoreWF core →
    (∀ p ∈ pending, p.1.id < core.r.downsets.length ∧
      p.2.id < core.r.downsets.length) →
    (core.r.downsets.length + 5) * (missing core.r).card + pending.length < fuel →
    (flowLoop fuel core pending).isSome := by
  intro fuel
  induction fuel with
  | zero =>
    intro core pending _ _ hΦ
    omega
  | succ fuel ih =>
    intro core pending hW hin hΦ
    rcases pending with _ | ⟨⟨l, u⟩, pending⟩
    · simp [flowLoop]
    · have hl : l.id < core.r.downsets.length := (hin _ (List.mem_cons_self _ _)).1
      have hu : u.id < core.r.downsets.length := (hin _ (List.mem_cons_self _ _)).2
      have hpairs : pairsIn core.r.downsets.length [(l.id, u.id)] := by
        intro p hp
        simp only [List.mem_singleton] at hp
        subst hp
        exact ⟨hl, hu⟩
      have hΦa : (core.r.downsets.length + 3) * (missing core.r).card +
          ([(l.id, u.id)] : List (ID × ID)).length < fuel + 1 := by
        have hmul : (core.r.downsets.length + 3) * (missing core.r).card ≤
            (core.r.downsets.length + 5) * (missing core.r).card :=
          Nat.mul_le_mul_right _ (by omega)
        simp only [List.length_singleton]
        simp only [List.length_cons] at hΦ
        omega
      obtain ⟨r', dout, heq, hW', hlen', hulen', hcard⟩ :=
        addEdgeLoop_spec (fuel + 1) core.r [(l.id, u.id)] [] hW.1 hpairs hΦa
      simp only [List.nil_append] at heq
      have hW2 : CoreWF { core with r := r' } := by
        refine ⟨hW', ?_, ?_⟩
        · rw [hlen']
          exact hW.2.1
        · exact hW.2.2
      have hgoal : flowLoop (fuel + 1) core ((l, u) :: pending) =
          (match processPairsRev { core with r := r' } dout.reverse pending with
           | .error e => some ({ core with r := r' }, .error e)
           | .ok pending' => flowLoop fuel { core with r := r' } pending') := by
        simp only [flowLoop, heq]
      rw [hgoal]
      rcases processPairsRev_spec { core with r := r' } hW2 dout.reverse pending with
        ⟨e, herr⟩ | ⟨delta, hok, hdl, hdr⟩
      · rw [herr]
        simp
      · rw [hok]
        apply ih { core with r := r' } (delta ++ pending) hW2
        · intro p hp
          rcases List.mem_append.mp hp with hp | hp
          · exact hdr p hp
          · have := hin p (List.mem_cons_of_mem _ hp)
            simp only at this ⊢
            rw [hlen']
            exact this
        · simp only at hdl hcard ⊢
          rw [List.length_reverse] at hdl
          rw [hlen', List.length_append]
          simp only [List.length_cons] at hΦ
          have hexp : (core.r.downsets.length + 5) * (missing core.r).card =
              (core.r.downsets.length + 5) * (missing r').card +
              (core.r.downsets.length + 5) * dout.length := by
            rw [← hcard]
            ring
          have hmul2 : 2 * dout.length ≤
              (core.r.downsets.length + 5) * dout.length :=
            Nat.mul_le_mul_right _ (by omega)
          rw [hexp] at hΦ
          omega

/-- C9.  For every well-formed state of the type store and every pair of
in-range handles, the fixed-point loop of `flow(lhs, rhs)` terminates: the set
of possible reachability pairs is finite (≤ `|V|²`, via the `missing` card)
and each pair is emitted to the worklist at most once, so some finite fuel
drains both worklists. -/
theorem flow_terminates (core : TypeCheckerCore) (lhs : Value) (rhs : Use)
    (hW : CoreWF core) (hl : lhs.id < core.r.downsets.length)
    (hr : rhs.id < core.r.downsets.length) :
    ∃ fuel, (core.flow fuel lhs rhs).isSome := by
  refine ⟨(core.r.downsets.length + 5) * (missing core.r).card + 2, ?_⟩
  apply flowLoop_total _ core [(lhs, rhs)] hW
  · intro p hp
    simp only [List.mem_singleton] at hp
    subst hp
    exact ⟨hl, hr⟩
  · simp

/-- C9 witness: the termination theorem applied to the concrete four-node
store and the handle pair `(Value 0, Use 2)`. -/
theorem flow_terminates_witness : ∃ fuel, (c8core.flow fuel ⟨0⟩ ⟨2⟩).isSome :=
  flow_terminates c8core ⟨0⟩ ⟨2⟩ (by decide) (by decide) (by decide)

/-! ### Bindings (`ty.rs` lines 13-50) -/

/-- `Bindings`: the name-to-`Value` map (a `HashMap`, embedded as a function)
and the undo journal (a `Vec`, embedded with its most recent entry at the
head). -/
structure Bindings where
  m : String → Option Value
  changes : List (String × Option Value)

/-- `Bindings::new`. -/
def Bindings.new : Bindings := ⟨fun _ => none, []⟩

/-- `Bindings::get`. -/
def Bindings.get (b : Bindings) (k : String) : Option Value := b.m k

/-- `Bindings::insert` (`ty.rs` lines 30-32): overwrite the binding.  Note
that the journal `changes` is NOT appended to — the Rust body is only
`self.m.insert(k.clone(), v);`. -/
def Bindings.insert (b : Bindings) (k : String) (v : Value) : Bindings :=
  { b with m := fun k2 => if k2 = k then some v else b.m k2 }

/-- The pop-and-restore loop of `Bindings::unwind`: while the journal is
longer than `n`, pop the most recent entry and restore the prior binding
(`Some v` reinserts, `None` removes). -/
def unwindList (m : String → Option Value) :
    List (String × Option Value) → Nat →
    (String → Option Value) × List (String × Option Value)
  | [], _ => (m, [])
  | (k, old) :: rest, n =>
    if rest.length + 1 > n then
      unwindList (fun k2 => if k2 = k then old else m k2) rest n
    else
      (m, (k, old) :: rest)

/-- `Bindings::unwind`. -/
def Bindings.unwind (b : Bindings) (n : Nat) : Bindings :=
  let (m2, ch) := unwindList b.m b.changes n
  ⟨m2, ch⟩

/-- `Bindings::in_child_scope`: remember the journal length, run the body,
unwind back to it. -/
def Bindings.in_child_scope {T : Type} (b : Bindings) (cb : Bindings → T × Bindings) :
    T × Bindings :=
  let n := b.changes.length
  let (res, b2) := cb b
  (res, b2.unwind n)

/-! ### The AST and the checker (`ty.rs` lines 210-379) -/

/-- Modelled from the spec: the `ast` module is declared in `lib.rs` but its
source file is not among the provided sources.  Spec §6 fixes its shape:
`Literal` has the single variant `Bool`. -/
inductive Literal
  | Bool (b : Bool)
deriving Repr, DecidableEq

/-- Modelled from the spec: `Expr` has exactly the ten variants listed in
spec §4.4 / §6, with the payloads `ty.rs` consumes. -/
inductive Expr
  | Literal (l : Literal)
  | Variable (name : String)
  | Record (fields : List (String × Expr))
  | Case (tag : String) (e : Expr)
  | If (cond thenE elseE : Expr)
  | FieldAccess (e : Expr) (name : String)
  | Match (scrut : Expr) (cases : List ((String × String) × Expr))
  | FuncDef (argName : String) (body : Expr)
  | Call (f a : Expr)
  | Let (d : String × Expr) (rest : Expr)
  | LetRec (defs : List (String × Expr)) (rest : Expr)
deriving Repr

/-- Modelled from the spec: `TopLevel` variants are `Expr`, `LetDef(name,
expr)` and `LetRecDef([(name, expr)])` (spec §6). -/
inductive TopLevel
  | Expr (e : Expr)
  | LetDef (d : String × Expr)
  | LetRecDef (defs : List (String × Expr))
deriving Repr

/-- The pre-declaration loop of `LetRec` / `LetRecDef`: bind each name to a
fresh variable, collecting the `Use` bounds in order. -/
def predeclare (engine : TypeCheckerCore) (bindings : Bindings) :
    List (String × Expr) → TypeCheckerCore × Bindings × List Use
  | [] => (engine, bindings, [])
  | (name, _) :: rest =>
    let (e1, temp_type, temp_bound) := engine.var
    let b1 := bindings.insert name temp_type
    let (e2, b2, tbs) := predeclare e1 b1 rest
    (e2, b2, temp_bound :: tbs)

mutual

/-- `check_expr` (`ty.rs` lines 262-379).  Errors return the mutated engine
and bindings, as Rust's `?` leaves `&mut` state; `none` is fuel exhaustion. -/
def check_expr : Nat → TypeCheckerCore → Bindings → Expr →
    Option (TypeCheckerCore × Bindings × Except String Value)
  | 0, _, _, _ => none
  | fuel + 1, engine, bindings, expr =>
    match expr with
    | .Literal val =>
      match val with
      | .Bool _ =>
        let (e1, v) := engine.bool
        some (e1, bindings, .ok v)
    | .Variable name =>
      match bindings.get name with
      | some v => some (engine, bindings, .ok v)
      | none => some (engine, bindings, .error ("Undefined variable " ++ name))
    | .Record fields =>
      match check_fields fuel engine bindings fields [] [] with
      | none => none
      | some (e1, b1, .error er) => some (e1, b1, .error er)
      | some (e1, b1, .ok pairs) =>
        let (e2, v) := e1.obj pairs
        some (e2, b1, .ok v)
    | .Case tag val_expr =>
      match check_expr fuel engine bindings val_expr with
      | none => none
      | some (e1, b1, .error er) => some (e1, b1, .error er)
      | some (e1, b1, .ok val_type) =>
        let (e2, v) := e1.case (tag, val_type)
        some (e2, b1, .ok v)
    | .If cond_expr then_expr else_expr =>
      match check_expr fuel engine bindings cond_expr with
      | none => none
      | some (e1, b1, .error er) => some (e1, b1, .error er)
      | some (e1, b1, .ok cond_type) =>
        let (e2, bound) := e1.bool_use
        match e2.flow fuel cond_type bound with
        | none => none
        | some (e3, .error er) => some (e3, b1, .error er)
        | some (e3, .ok _) =>
          match check_expr fuel e3 b1 then_expr with
          | none => none
          | some (e4, b2, .error er) => some (e4, b2, .error er)
          | some (e4, b2, .ok then_type) =>
            match check_expr fuel e4 b2 else_expr with
            | none => none
            | some (e5, b3, .error er) => some (e5, b3, .error er)
            | some (e5, b3, .ok else_type) =>
              let (e6, merged, merged_bound) := e5.var
              match e6.flow fuel then_type merged_bound with
              | none => none
              | some (e7, .error er) => some (e7, b3, .error er)
              | some (e7, .ok _) =>
                match e7.flow fuel else_type merged_bound with
                | none => none
                | some (e8, .error er) => some (e8, b3, .error er)
                | some (e8, .ok _) => some (e8, b3, .ok merged)
    | .FieldAccess lhs_expr name =>
      match check_expr fuel engine bindings lhs_expr with
      | none => none
      | some (e1, b1, .error er) => some (e1, b1, .error er)
      | some (e1, b1, .ok lhs_type) =>
        let (e2, field_type, field_bound) := e1.var
        let (e3, bound) := e2.obj_use (name, field_bound)
        match e3.flow fuel lhs_type bound with
        | none => none
        | some (e4, .error er) => some (e4, b1, .error er)
        | some (e4, .ok _) => some (e4, b1, .ok field_type)
    | .Match scrut_expr cases =>
      match check_expr fuel engine bindings scrut_expr with
      | none => none
      | some (e1, b1, .error er) => some (e1, b1, .error er)
      | some (e1, b1, .ok match_type) =>
        let (e2, result_type, result_bound) := e1.var
        match check_arms fuel e2 b1 result_bound cases [] [] with
        | none => none
        | some (e3, b2, .error er) => some (e3, b2, .error er)
        | some (e3, b2, .ok case_type_pairs) =>
          let (e4, bound) := e3.case_use case_type_pairs
          match e4.flow fuel match_type bound with
          | none => none
          | some (e5, .error er) => some (e5, b2, .error er)
          | some (e5, .ok _) => some (e5, b2, .ok result_type)
    | .FuncDef arg_name body_expr =>
      let (e1, arg_type, arg_bound) := engine.var
      let (res, b1) := bindings.in_child_scope (fun b =>
        match check_expr fuel e1 (b.insert arg_name arg_type) body_expr with
        | none => (none, b.insert arg_name arg_type)
        | some (e2, b2, r) => (some (e2, r), b2))
      match res with
      | none => none
      | some (e2, .error er) => some (e2, b1, .error er)
      | some (e2, .ok body_type) =>
        let (e3, v) := e2.func arg_bound body_type
        some (e3, b1, .ok v)
    | .Call func_expr arg_expr =>
      match check_expr fuel engine bindings func_expr with
      | none => none
      | some (e1, b1, .error er) => some (e1, b1, .error er)
      | some (e1, b1, .ok func_type) =>
        match check_expr fuel e1 b1 arg_expr with
        | none => none
        | some (e2, b2, .error er) => some (e2, b2, .error er)
        | some (e2, b2, .ok arg_type) =>
          let (e3, ret_type, ret_bound) := e2.var
          let (e4, bound) := e3.func_use arg_type ret_bound
          match e4.flow fuel func_type bound with
          | none => none
          | some (e5, .error er) => some (e5, b2, .error er)
          | some (e5, .ok _) => some (e5, b2, .ok ret_type)
    | .Let (name, var_expr) rest_expr =>
      match check_expr fuel engine bindings var_expr with
      | none => none
      | some (e1, b1, .error er) => some (e1, b1, .error er)
      | some (e1, b1, .ok var_type) =>
        let (res, b2) := b1.in_child_scope (fun b =>
          match check_expr fuel e1 (b.insert name var_type) rest_expr with
          | none => (none, b.insert name var_type)
          | some (e2, b3, r) => (some (e2, r), b3))
        match res with
        | none => none
        | some (e2, r) => some (e2, b2, r)
    | .LetRec defs rest_expr =>
      let (res, b1) := bindings.in_child_scope (fun b =>
        let (e1, b2, temp_bounds) := predeclare engine b defs
        match check_recdefs fuel e1 b2 (defs.zip temp_bounds) with
        | none => (none, b2)
        | some (e2, b3, .error er) => (some (e2, .error er), b3)
        | some (e2, b3, .ok _) =>
          match check_expr fuel e2 b3 rest_expr with
          | none => (none, b3)
          | some (e3, b4, r) => (some (e3, r), b4))
      match res with
      | none => none
      | some (e2, r) => some (e2, b1, r)

/-- The `Record` field loop: reject repeated field names (checked against the
accumulated name set before checking the field expression), accumulate
`(name, type)` pairs in order. -/
def check_fields : Nat → TypeCheckerCore → Bindings → List (String × Expr) →
    List String → List (String × Value) →
    Option (TypeCheckerCore × Bindings × Except String (List (String × Value)))
  | 0, _, _, _, _, _ => none
  | _ + 1, engine, bindings, [], _, pairs => some (engine, bindings, .ok pairs)
  | fuel + 1, engine, bindings, (name, ex) :: rest, names, pairs =>
    if name ∈ names then
      some (engine, bindings, .error ("Repeated field name: " ++ name))
    else
      match check_expr fuel engine bindings ex with
      | none => none
      | some (e1, b1, .error er) => some (e1, b1, .error er)
      | some (e1, b1, .ok t) =>
        check_fields fuel e1 b1 rest (name :: names) (pairs ++ [(name, t)])

/-- The `Match` arm loop (`ty.rs` lines 320-334): the duplicate check is on
the bound variable NAME (`case_names.insert(&*name)`), not the tag; each arm
allocates a wrapped variable, records `(tag, wrapped_bound)`, checks the body
in a child scope and flows it into the shared result bound. -/
def check_arms : Nat → TypeCheckerCore → Bindings → Use →
    List ((String × String) × Expr) → List String → List (String × Use) →
    Option (TypeCheckerCore × Bindings × Except String (List (String × Use)))
  | 0, _, _, _, _, _, _ => none
  | _ + 1, engine, bindings, _, [], _, pairs => some (engine, bindings, .ok pairs)
  | fuel + 1, engine, bindings, result_bound, ((tag, name), rhs_expr) :: rest, names, pairs =>
    if name ∈ names then
      some (engine, bindings, .error ("Repeated match case " ++ name))
    else
      let (e1, wrapped_type, wrapped_bound) := engine.var
      let pairs2 := pairs ++ [(tag, wrapped_bound)]
      let (res, b1) := bindings.in_child_scope (fun b =>
        match check_expr fuel e1 (b.insert name wrapped_type) rhs_expr with
        | none => (none, b.insert name wrapped_type)
        | some (e2, b2, r) => (some (e2, r), b2))
      match res with
      | none => none
      | some (e2, .error er) => some (e2, b1, .error er)
      | some (e2, .ok rhs_type) =>
        match e2.flow fuel rhs_type result_bound with
        | none => none
        | some (e3, .error er) => some (e3, b1, .error er)
        | some (e3, .ok _) => check_arms fuel e3 b1 result_bound rest (name :: names) pairs2

/-- The `LetRec` / `LetRecDef` right-hand-side loop: check each definition
and flow it into its pre-declared bound. -/
def check_recdefs : Nat → TypeCheckerCore → Bindings →
    List ((String × Expr) × Use) →
    Option (TypeCheckerCore × Bindings × Except String Unit)
  | 0, _, _, _ => none
  | _ + 1, engine, bindings, [] => some (engine, bindings, .ok ())
  | fuel + 1, engine, bindings, ((_, ex), bound) :: rest =>
    match check_expr fuel engine bindings ex with
    | none => none
    | some (e1, b1, .error er) => some (e1, b1, .error er)
    | some (e1, b1, .ok var_type) =>
      match e1.flow fuel var_type bound with
      | none => none
      | some (e2, .error er) => some (e2, b1, .error er)
      | some (e2, .ok _) => check_recdefs fuel e2 b1 rest

end

/-- `check_toplevel` (`ty.rs` lines 231-260). -/
def check_toplevel (fuel : Nat) (engine : TypeCheckerCore) (bindings : Bindings) :
    TopLevel → Option (TypeCheckerCore × Bindings × Except String Unit)
  | .Expr e =>
    match check_expr fuel engine bindings e with
    | none => none
    | some (e1, b1, .error er) => some (e1, b1, .error er)
    | some (e1, b1, .ok _) => some (e1, b1, .ok ())
  | .LetDef (name, var_expr) =>
    match check_expr fuel engine bindings var_expr with
    | none => none
    | some (e1, b1, .error er) => some (e1, b1, .error er)
    | some (e1, b1, .ok var_type) => some (e1, b1.insert name var_type, .ok ())
  | .LetRecDef defs =>
    let (e1, b1, temp_bounds) := predeclare engine bindings defs
    check_recdefs fuel e1 b1 (defs.zip temp_bounds)

/-- `TypeckState`. -/
structure TypeckState where
  core : TypeCheckerCore
  bindings : Bindings

/-- `TypeckState::new`. -/
def TypeckState.new : TypeckState := ⟨TypeCheckerCore.new, Bindings.new⟩

/-- The item loop of `check_script`, carrying the pre-call clone `temp`: on
the first error, swap the clone back in, unwind the binding journal to 0 and
surface the error; on success clear the journal. -/
def check_script_loop (fuel : Nat) (temp : TypeCheckerCore) :
    TypeCheckerCore → Bindings → List TopLevel →
    Option (TypeckState × Except String Unit)
  | core, bindings, [] => some (⟨core, { bindings with changes := [] }⟩, .ok ())
  | core, bindings, item :: rest =>
    match check_toplevel fuel core bindings item with
    | none => none
    | some (_, b2, .error e) => some (⟨temp, b2.unwind 0⟩, .error e)
    | some (core2, b2, .ok _) => check_script_loop fuel temp core2 b2 rest

/-- `TypeckState::check_script` (`ty.rs` lines 210-228). -/
def TypeckState.check_script (st : TypeckState) (fuel : Nat) (parsed : List TopLevel) :
    Option (TypeckState × Except String Unit) :=
  check_script_loop fuel st.core st.core st.bindings parsed

/-- C4.  The claim asserts that `in_child_scope(body)` restores the binding
map because `insert` first records an undo-journal entry.  The code violates
it: `Bindings::insert` (lines 30-32) never pushes to `changes` (the vestigial
`k.clone()` shows the journal line was dropped), so `unwind` has nothing to
pop and a name inserted by the body stays bound after the call. -/
theorem in_child_scope_does_not_restore :
    ((Bindings.new.in_child_scope (fun b => (PUnit.unit, b.insert "x" ⟨0⟩))).2).get "x" =
      some ⟨0⟩ ∧
    Bindings.new.get "x" = none :=
  ⟨rfl, rfl⟩

/-- The two-item script `[let x = true ; let y = x.bad]`. -/
def c3script : List TopLevel :=
  [.LetDef ("x", .Literal (.Bool true)),
   .LetDef ("y", .FieldAccess (.Variable "x") "bad")]

/-- C3 counterexample.  On `[let x = true ; let y = x.bad]` the error is
"Unexpected types" (the `VBool` head meets the `UObj` head, falling to the
catch-all arm of `check_heads`), not the claimed missing-field error, and `x`
remains bound after the call (because `insert` records no undo entry,
`unwind(0)` has nothing to pop). -/
theorem check_script_example_not_missing_field :
    (TypeckState.new.check_script 50 c3script).map (fun p => p.2) =
      some (.error "Unexpected types") ∧
    ("Unexpected types" : String) ≠ "Missing field: bad" ∧
    (TypeckState.new.check_script 50 c3script).map (fun p => p.1.bindings.get "x") =
      some (some ⟨0⟩) :=
  ⟨rfl, by decide, rfl⟩

theorem check_script_loop_error_core : ∀ (parsed : List TopLevel) (fuel : Nat)
    (temp core : TypeCheckerCore) (bindings : Bindings) (st2 : TypeckState) (e : String),
    check_script_loop fuel temp core bindings parsed = some (st2, .error e) →
    st2.core = temp := by
  intro parsed
  induction parsed with
  | nil =>
    intro fuel temp core bindings st2 e heq
    simp only [check_script_loop, Option.some.injEq, Prod.mk.injEq] at heq
    exact absurd heq.2 (by simp)
  | cons item rest ih =>
    intro fuel temp core bindings st2 e heq
    simp only [check_script_loop] at heq
    rcases h1 : check_toplevel fuel core bindings item with _ | ⟨core2, b2, res⟩
    · rw [h1] at heq
      simp at heq
    · rw [h1] at heq
      rcases res with er | u
      · simp only [Option.some.injEq, Prod.mk.injEq] at heq
        rw [← heq.1]
      · exact ih fuel temp core2 b2 st2 e heq

/-- C3 amended.  When `check_script` returns an error the type store is
restored exactly (the pre-call clone is swapped back), but the bindings are
not rolled back: insertions made before the failing item survive, because
`insert` records no undo entry and `unwind(0)` finds an empty journal.  On
the example script the surfaced error is "Unexpected types" and `x` stays
bound while the type store returns to its pre-call (empty) state. -/
theorem check_script_restores_core_not_bindings :
    (∀ (fuel : Nat) (st : TypeckState) (parsed : List TopLevel)
        (st2 : TypeckState) (e : String),
        st.check_script fuel parsed = some (st2, .error e) → st2.core = st.core) ∧
    (TypeckState.new.check_script 50 c3script).map (fun p => p.2) =
      some (.error "Unexpected types") ∧
    (TypeckState.new.check_script 50 c3script).map (fun p => p.1.bindings.get "x") =
      some (some ⟨0⟩) ∧
    (TypeckState.new.check_script 50 c3script).map (fun p => p.1.core) =
      some TypeckState.new.core := by
  refine ⟨?_, rfl, rfl, rfl⟩
  intro fuel st parsed st2 e heq
  exact check_script_loop_error_core parsed fuel st.core st.core st.bindings st2 e heq

/-- C3 amended witness: a one-item erroring script, with the core-restoration
clause applied to it at its concrete rolled-back state. -/
theorem check_script_restores_core_witness :
    TypeckState.new.check_script 50 [TopLevel.Expr (.Variable "nope")] =
      some (⟨TypeckState.new.core, Bindings.new.unwind 0⟩, .error "Undefined variable nope") ∧
    (⟨TypeckState.new.core, Bindings.new.unwind 0⟩ : TypeckState).core =
      TypeckState.new.core :=
  ⟨rfl, check_script_restores_core_not_bindings.1 50 TypeckState.new
    [TopLevel.Expr (.Variable "nope")]
    ⟨TypeckState.new.core, Bindings.new.unwind 0⟩ "Undefined variable nope" rfl⟩

/-! ### Repeated tags in `Match` (C10) -/

/-- A store with one variable node (the scrutinee's). -/
def c10core : TypeCheckerCore := (TypeCheckerCore.new.var).1

/-- `s` bound to the variable node. -/
def c10bind : Bindings := Bindings.new.insert "s" ⟨0⟩

/-- A match on `s` with two arms sharing one tag but with two bound names. -/
def c10expr (tag n1 n2 : String) : Expr :=
  .Match (.Variable "s")
    [((tag, n1), .Literal (.Bool true)), ((tag, n2), .Literal (.Bool true))]

/-- The store state `check_arms` leaves behind for `c10expr`: the result
variable (node 1), the two wrapped variables (2, 4), the two `VBool` bodies
(3, 5), each body flowed into the result bound. -/
def e3c10 : TypeCheckerCore :=
  { r := { upsets := [⟨[], []⟩, ⟨[], []⟩, ⟨[], []⟩, ⟨[3], [3]⟩, ⟨[], []⟩, ⟨[5], [5]⟩],
           downsets := [⟨[], []⟩, ⟨[], []⟩, ⟨[], []⟩, ⟨[1], [1]⟩, ⟨[], []⟩, ⟨[1], [1]⟩] },
    types := [.Var, .Var, .Var, .Value .VBool, .Var, .Value .VBool] }

/-- The final store for `c10expr`: node 6 is the `UCase` head holding BOTH
`(tag, Use 2)` and `(tag, Use 4)` entries, and the scrutinee flowed into it. -/
def c10final (tag : String) : TypeCheckerCore :=
  { r := { upsets := [⟨[0], [0]⟩, ⟨[], []⟩, ⟨[], []⟩, ⟨[3], [3]⟩, ⟨[], []⟩, ⟨[5], [5]⟩, ⟨[], []⟩],
           downsets := [⟨[6], [6]⟩, ⟨[], []⟩, ⟨[], []⟩, ⟨[1], [1]⟩, ⟨[], []⟩, ⟨[1], [1]⟩, ⟨[], []⟩] },
    types := [.Var, .Var, .Var, .Value .VBool, .Var, .Value .VBool,
              .Use (.UCase [(tag, ⟨2⟩), (tag, ⟨4⟩)])] }

/-- C10.  Checking a `Match` rejects only repeated bound variable names,
never repeated tags: for every tag and every two distinct bound names, the
two-arm match with the repeated tag checks without error (result `Value 1`),
the collected `(tag, use)` pairs both reach the `UCase` head, and the
hash-map lookup semantics (`hmGet`, last-insert-wins) make the later arm's
use handle (`Use 4`) shadow the earlier one for that tag. -/
theorem match_repeated_tag_not_rejected (tag n1 n2 : String) (h : n1 ≠ n2) :
    (check_expr 50 c10core c10bind (c10expr tag n1 n2)).map (fun p => (p.1, p.2.2)) =
      some (c10final tag, .ok ⟨1⟩) ∧
    (c10final tag).types.getD 6 TypeNode.Var = .Use (.UCase [(tag, ⟨2⟩), (tag, ⟨4⟩)]) ∧
    hmGet [(tag, (⟨2⟩ : Use)), (tag, ⟨4⟩)] tag = some ⟨4⟩ := by
  have hne : ¬ (n2 ∈ [n1]) := by
    simp only [List.mem_singleton]
    exact fun hc => h hc.symm
  have hne2 : ¬ (n2 = n1) := fun hc => h hc.symm
  have harms : check_arms 49
      ⟨⟨[⟨[], []⟩, ⟨[], []⟩], [⟨[], []⟩, ⟨[], []⟩]⟩, [.Var, .Var]⟩
      ⟨fun k2 => if k2 = "s" then some ⟨0⟩ else none, []⟩ ⟨1⟩
      [((tag, n1), .Literal (.Bool true)), ((tag, n2), .Literal (.Bool true))] [] [] =
      some (e3c10,
        ⟨fun k2 => if k2 = n2 then some ⟨4⟩ else if k2 = n1 then some ⟨2⟩
                   else if k2 = "s" then some ⟨0⟩ else none, []⟩,
        .ok [(tag, ⟨2⟩), (tag, ⟨4⟩)]) := by
    simp [check_arms, check_expr, hne, hne2, e3c10,
      TypeCheckerCore.var, TypeCheckerCore.bool, TypeCheckerCore.new, TypeCheckerCore.new_val,
      TypeCheckerCore.new_use, TypeCheckerCore.flow, flowLoop,
      addEdgeLoop, processPairsRev, OrderedSet.insert, Reachability.add_node,
      Reachability.empty, OrderedSet.empty, Bindings.get, Bindings.insert, Bindings.new,
      Bindings.in_child_scope, Bindings.unwind, unwindList, Reachability.add_edge]
  refine ⟨?_, rfl, by simp [hmGet]⟩
  simp [check_expr, c10core, c10bind, c10expr, c10final, harms, e3c10,
    TypeCheckerCore.var, TypeCheckerCore.bool, TypeCheckerCore.new, TypeCheckerCore.new_val,
    TypeCheckerCore.new_use, TypeCheckerCore.case_use, TypeCheckerCore.flow, flowLoop,
    addEdgeLoop, processPairsRev, OrderedSet.insert, Reachability.add_node,
    Reachability.empty, OrderedSet.empty, Bindings.get, Bindings.insert, Bindings.new,
    Bindings.in_child_scope, Bindings.unwind, unwindList, Reachability.add_edge]

/-- C10 witness: the repeated-tag match theorem at tag `t` and bound names
`a`, `b`. -/
theorem match_repeated_tag_not_rejected_witness :
    (check_expr 50 c10core c10bind (c10expr "t" "a" "b")).map (fun p => (p.1, p.2.2)) =
      some (c10final "t", .ok ⟨1⟩) ∧
    (c10final "t").types.getD 6 TypeNode.Var = .Use (.UCase [("t", ⟨2⟩), ("t", ⟨4⟩)]) ∧
    hmGet [("t", (⟨2⟩ : Use)), ("t", ⟨4⟩)] "t" = some ⟨4⟩ :=
  match_repeated_tag_not_rejected "t" "a" "b" (by decide)

end Zx
